import Mathlib

/-!
Verification development for the ExpoVideoDemo repository
(src/components/CapCutTimeline.tsx and src/app/video.tsx).

The file shallowly embeds the pieces of `CapCutTimeline.tsx` that carry the
interesting behaviour:

* the singleton `ThumbnailCache` (a JavaScript `Map` with FIFO eviction,
  lines 57-85), modelled as an insertion-ordered association list;
* the bounded-concurrency task runner `generateThumbnailsWithLimit`
  (lines 107-128), modelled as a small-step scheduler whose nondeterminism
  ranges over the order in which in-flight extraction calls complete;
* the generation effect of `CapCutTimeline` (lines 248-317): cancellation
  via `AbortController`, the mounted flag, the post-processing of results
  into `orderedResults`, and the conditional cache write;
* the `timeUpdate` listener (lines 332-340);
* the tap / pan gesture maths (lines 356-394);
* the sample-timestamp computation (line 273).

Real numbers of the host language are modelled as rationals.
-/

namespace CapCutTimeline

/-! ## JavaScript Map model (insertion-ordered association list)

A JavaScript `Map` iterates its entries in insertion order; `set` on an
existing key overwrites the value but keeps the key's original position,
`set` on a fresh key appends at the end, and `delete` removes the entry.
`map.keys().next().value` is the key of the earliest-inserted entry. -/

/-- A thumbnail URI (the `result.uri` of `getThumbnailAsync`). -/
abbrev Uri := String

/-- The `(string | null)[]` thumbnail array: `none` is the absent marker. -/
abbrev Thumbs := List (Option Uri)

/-- Cache key, line 256: the string `${videoUri}_${Math.round(duration)}`,
modelled as the pair of its two constituents. -/
abbrev CacheKey := String × ℤ

/-- The underlying `Map<string, string[]>` of `ThumbnailCache` (line 59). -/
abbrev CacheMap := List (CacheKey × Thumbs)

/-- JS `map.get(k)`: the value stored at the (unique) entry with key `k`. -/
def mapGet (m : CacheMap) (k : CacheKey) : Option Thumbs :=
  (m.find? (fun p => p.1 = k)).map Prod.snd

/-- JS `map.set(k, v)`: overwrite in place when `k` is present, else append. -/
def mapSet (m : CacheMap) (k : CacheKey) (v : Thumbs) : CacheMap :=
  if m.any (fun p => p.1 = k) then
    m.map (fun p => if p.1 = k then (k, v) else p)
  else
    m ++ [(k, v)]

/-- JS `map.delete(k)`: remove the entry with key `k`. -/
def mapDelete (m : CacheMap) (k : CacheKey) : CacheMap :=
  m.filter (fun p => ¬ p.1 = k)

/-- JS `map.keys().next().value`: the earliest-inserted key, if any. -/
def firstKey (m : CacheMap) : Option CacheKey :=
  m.head?.map Prod.fst

/-- `ThumbnailCache.maxSize` (line 60). -/
def maxSize : Nat := 5

/-- `ThumbnailCache.get` (lines 69-71). -/
def cacheGet (m : CacheMap) (k : CacheKey) : Option Thumbs :=
  mapGet m k

/-- `ThumbnailCache.set` (lines 73-80): when the map already holds
`maxSize` entries, delete the earliest-inserted key (when one exists),
then store the new entry. -/
def cacheSet (m : CacheMap) (k : CacheKey) (v : Thumbs) : CacheMap :=
  let m1 :=
    if maxSize ≤ m.length then
      match firstKey m with
      | some fk => mapDelete m fk
      | none => m
    else m
  mapSet m1 k v

/-- JS `Math.round` (half rounds toward positive infinity). -/
def jsRound (q : ℚ) : ℤ := ⌊q + 1 / 2⌋

/-- The cache key of line 256, built from the video URI and the duration. -/
def mkCacheKey (videoUri : String) (duration : ℚ) : CacheKey :=
  (videoUri, jsRound duration)

/-! ## generateThumbnailsWithLimit (lines 107-128)

The runner keeps a pool `executing` of in-flight tasks.  Its loop admits
tasks in index order; after each admission, if the pool has reached
`limit` it awaits `Promise.race(executing)`, i.e. parks until one of the
in-flight tasks completes.  A completing task pushes its result onto
`results` (hence `results` is in completion order, not index order) and
splices itself out of the pool.  After the loop the runner drains the
remaining pool with `Promise.all` and returns `results`.

The small-step model below makes the completion order of in-flight tasks
the scheduler's nondeterministic choice.  `f i` is the value task `i`
eventually resolves with: in `generate` (lines 270-284) every task
resolves — a successful extraction yields `some uri`, a caught failure or
an aborted run yields `none` — so a task outcome is an `Option Uri`. -/

/-- State of one `generateThumbnailsWithLimit` run: `nextTask` is the index
the admission loop will start next; `executing` holds the in-flight task
indices in admission order; `results` is the completion-order list of
pushed results; `waiting` is true while the loop is parked on
`await Promise.race(executing)`. -/
structure GenState where
  nextTask : Nat
  executing : List Nat
  results : Thumbs
  waiting : Bool
deriving DecidableEq, Repr

/-- The initial state of a run: nothing admitted, nothing in flight. -/
def initGen : GenState := ⟨0, [], [], false⟩

/-- One step of a `generateThumbnailsWithLimit` run with `n` tasks, window
`limit` and task outcomes `f`.  `launch` is the loop body: it starts task
`nextTask`, appends it to the pool and parks exactly when the pool has
reached `limit` (line 121).  `complete` is the `.then` continuation of an
in-flight task resolving (any of them — the scheduler's choice): it pushes
the task's outcome onto `results`, splices the task out of the pool
(line 117) and, if the loop was parked, resolves its race. -/
inductive GStep (n limit : Nat) (f : Nat → Option Uri) : GenState → GenState → Prop
  | launch (s s' : GenState)
      (hw : s.waiting = false) (hn : s.nextTask < n)
      (hs : s' = ⟨s.nextTask + 1, s.executing ++ [s.nextTask], s.results,
                  decide (limit ≤ s.executing.length + 1)⟩) :
      GStep n limit f s s'
  | complete (s s' : GenState) (i : Nat)
      (hi : i ∈ s.executing)
      (hs : s' = ⟨s.nextTask, s.executing.erase i, s.results ++ [f i], false⟩) :
      GStep n limit f s s'

/-- The states a `generateThumbnailsWithLimit` run can reach. -/
inductive Reach (n limit : Nat) (f : Nat → Option Uri) : GenState → Prop
  | init : Reach n limit f initGen
  | step {s s' : GenState} : Reach n limit f s → GStep n limit f s s' → Reach n limit f s'

/-! ## Post-processing of results in `generate` (lines 292-305) -/

/-- JS array assignment `a[idx] = v` on a `(string | null)[]`: extends the
array with holes (`null`) when `idx` is past the end. -/
def setSlot (l : Thumbs) (idx : Nat) (v : Uri) : Thumbs :=
  if idx < l.length then l.set idx (some v)
  else l ++ List.replicate (idx - l.length) none ++ [some v]

/-- Lines 294-297: `orderedResults = Array(n).fill(null)` followed by
`results.forEach((uri, idx) => { if (uri) orderedResults[idx] = uri })`.
Note `idx` is the position in the completion-order `results` list. -/
def orderResults (n : Nat) (results : Thumbs) : Thumbs :=
  results.enum.foldl
    (fun acc p =>
      match p.2 with
      | some uri => setSlot acc p.1 uri
      | none => acc)
    (List.replicate n none)

/-! ## The generation effect: cancellation, screen state and cache
(lines 229-317)

Each run of the effect creates a fresh `AbortController` (a run token).
Starting a new run first aborts the previous one (line 252); the effect's
cleanup aborts its own controller (line 316); unmount clears the mounted
flag and aborts the active controller (lines 241-244).  A run's completion
continuation (lines 292-306) writes the thumbnails array, clears the
loading flag and conditionally writes the cache only when its own
controller is not aborted and the component is still mounted. -/

/-- Screen-instance world: `active` is the token of the controller held in
`abortControllerRef`; `cancelled` collects the tokens of aborted
controllers; `mounted` is `isMountedRef`; `thumbnails` and `isLoading` are
the two pieces of screen state the generation pipeline writes; `cache` is
the process-wide `ThumbnailCache` map. -/
structure World where
  active : Nat
  cancelled : List Nat
  mounted : Bool
  thumbnails : Thumbs
  isLoading : Bool
  cache : CacheMap
deriving DecidableEq, Repr

/-- Observable events of the generation pipeline.  `startRun t` is a new
execution of the generation effect with fresh token `t` (lines 248-268):
it aborts the predecessor and, when mounted, raises the loading flag.
`genComplete t uri duration res` is the completion continuation of run `t`
(lines 292-306), with `res` the completion-order result list returned by
`generateThumbnailsWithLimit`.  `teardown` is the unmount cleanup
(lines 241-244). -/
inductive Event where
  | startRun (t : Nat)
  | genComplete (t : Nat) (videoUri : String) (duration : ℚ) (res : Thumbs)
  | teardown
deriving DecidableEq, Repr

/-- The effect of one event on the world; `n` is `THUMBNAIL_COUNT`.
A completion whose token has been aborted, or arriving after unmount,
writes nothing at all (the guard of line 292); otherwise it stores
`orderResults n res` into the thumbnails state, clears the loading flag
and, when some slot is non-absent, writes the full ordered sequence into
the cache under the key of line 256 (lines 302-305). -/
def stepW (n : Nat) (w : World) (e : Event) : World :=
  match e with
  | .startRun t =>
      { w with
        active := t
        cancelled := w.active :: w.cancelled
        isLoading := if w.mounted then true else w.isLoading }
  | .genComplete t videoUri duration res =>
      if t ∉ w.cancelled ∧ w.mounted then
        let ordered := orderResults n res
        { w with
          thumbnails := ordered
          isLoading := false
          cache :=
            if ordered.any (fun r => r ≠ none) then
              cacheSet w.cache (mkCacheKey videoUri duration) ordered
            else w.cache }
      else w
  | .teardown =>
      { w with mounted := false, cancelled := w.active :: w.cancelled }

/-- Process a list of events in order. -/
def runEvents (n : Nat) (w0 : World) (es : List Event) : World :=
  es.foldl (stepW n) w0

/-! ## The timeUpdate listener (lines 332-340) -/

/-- The per-screen playback position: the shared value `progress`
(NormalizedProgress) and the `displayTime` state (DisplayTime). -/
structure PlaybackPos where
  progress : ℚ
  displayTime : ℚ
deriving DecidableEq, Repr

/-- The `timeUpdate` listener (lines 333-338): when no drag is active and
the duration is positive, set `progress` to `currentTime / duration` and
schedule `displayTime := currentTime`; otherwise leave the state alone. -/
def onTimeUpdate (isDragging : Bool) (duration currentTime : ℚ)
    (s : PlaybackPos) : PlaybackPos :=
  if isDragging = false ∧ 0 < duration then
    { progress := currentTime / duration, displayTime := currentTime }
  else s

/-! ## Gesture maths (lines 361-394)

The tap `onEnd`, pan `onUpdate` and pan `onEnd` handlers all compute the
same two quantities from the event's x offset. -/

/-- Lines 363-364 (and 380-381, 388-389):
`x = Math.max(0, Math.min(event.x, TIMELINE_WIDTH))`,
`newProgress = x / TIMELINE_WIDTH`. -/
def pointerProgress (x width : ℚ) : ℚ :=
  max 0 (min x width) / width

/-- Lines 366 (and 383, 390): `newTime = newProgress * duration`. -/
def pointerTime (x width duration : ℚ) : ℚ :=
  pointerProgress x width * duration

/-! ## Sample timestamps (line 273) -/

/-- Line 273: `timeMs = (duration / THUMBNAIL_COUNT) * i * 1000`, the
timestamp (in milliseconds) requested from `getThumbnailAsync` for slot
`i` of a run with `count` thumbnails. -/
def sampleTimeMs (duration : ℚ) (count : Nat) (i : Nat) : ℚ :=
  duration / count * i * 1000

/-! ## Lemmas about the Map model -/

theorem mapSet_cons_ne (p : CacheKey × Thumbs) (rest : CacheMap) (k : CacheKey)
    (v : Thumbs) (h : p.1 ≠ k) :
    mapSet (p :: rest) k v = p :: mapSet rest k v := by
  unfold mapSet
  simp only [List.any_cons, List.map_cons, decide_eq_true_eq]
  rw [if_neg h]
  by_cases hr : rest.any (fun q => q.1 = k) = true
  · simp [hr, h]
  · simp only [Bool.not_eq_true] at hr
    simp [hr, h]

theorem mapGet_mapSet_self (m : CacheMap) (k : CacheKey) (v : Thumbs) :
    mapGet (mapSet m k v) k = some v := by
  induction m with
  | nil => simp [mapGet, mapSet]
  | cons p rest ih =>
      by_cases h : p.1 = k
      · unfold mapSet
        simp only [List.any_cons, List.map_cons]
        rw [if_pos (by simp [h]), if_pos h]
        unfold mapGet
        simp
      · rw [mapSet_cons_ne p rest k v h]
        unfold mapGet at ih ⊢
        simpa [List.find?_cons, h] using ih

theorem mapGet_eq_none (m : CacheMap) (k : CacheKey)
    (h : ∀ p ∈ m, p.1 ≠ k) : mapGet m k = none := by
  unfold mapGet
  rw [List.find?_eq_none.mpr]
  · rfl
  · intro p hp
    simpa using h p hp

theorem length_mapSet_of_mem (m : CacheMap) (k : CacheKey) (v : Thumbs)
    (h : m.any (fun p => p.1 = k) = true) :
    (mapSet m k v).length = m.length := by
  unfold mapSet
  rw [if_pos h, List.length_map]

theorem mapSet_of_not_mem (m : CacheMap) (k : CacheKey) (v : Thumbs)
    (h : m.any (fun p => p.1 = k) = false) :
    mapSet m k v = m ++ [(k, v)] := by
  unfold mapSet
  rw [if_neg (by simp [h])]

theorem mapDelete_cons_head (fk : CacheKey) (v0 : Thumbs) (rest : CacheMap)
    (h : ∀ p ∈ rest, p.1 ≠ fk) :
    mapDelete ((fk, v0) :: rest) fk = rest := by
  unfold mapDelete
  rw [List.filter_cons_of_neg (by simp)]
  exact List.filter_eq_self.mpr (fun p hp => by simpa using h p hp)

theorem firstKey_shape {m : CacheMap} {fk : CacheKey} (h : firstKey m = some fk) :
    ∃ v0 rest, m = (fk, v0) :: rest := by
  cases m with
  | nil => simp [firstKey] at h
  | cons p rest =>
      cases p with
      | mk k0 v0 =>
          simp only [firstKey, List.head?_cons] at h
          refine ⟨v0, rest, ?_⟩
          simp at h
          rw [h]

theorem cacheSet_of_small (m : CacheMap) (k : CacheKey) (v : Thumbs)
    (hlen : m.length < 5) (h : m.any (fun p => p.1 = k) = false) :
    cacheSet m k v = m ++ [(k, v)] := by
  unfold cacheSet
  rw [if_neg (by simpa [maxSize] using hlen)]
  exact mapSet_of_not_mem m k v h

theorem cacheSet_of_full (m : CacheMap) (k : CacheKey) (v : Thumbs)
    (fk : CacheKey) (hlen : 5 ≤ m.length) (hfk : firstKey m = some fk) :
    cacheSet m k v = mapSet (mapDelete m fk) k v := by
  unfold cacheSet
  rw [if_pos (by simpa [maxSize] using hlen), hfk]

theorem length_mapSet_le (m : CacheMap) (k : CacheKey) (v : Thumbs) :
    (mapSet m k v).length ≤ m.length + 1 := by
  unfold mapSet
  split
  · simp
  · simp

theorem cacheSet_length_le (m : CacheMap) (k : CacheKey) (v : Thumbs)
    (h : m.length ≤ 5) : (cacheSet m k v).length ≤ 5 := by
  by_cases hfull : 5 ≤ m.length
  · have hm : m ≠ [] := by
      intro he
      subst he
      simp at hfull
    obtain ⟨p, rest, he⟩ := List.exists_cons_of_ne_nil hm
    have hfk : firstKey m = some p.1 := by
      subst he
      simp [firstKey]
    rw [cacheSet_of_full m k v p.1 hfull hfk]
    have hr : rest.length ≤ 4 := by
      subst he
      simp at h
      omega
    have h1 : (mapDelete m p.1).length ≤ 4 := by
      subst he
      unfold mapDelete
      rw [List.filter_cons_of_neg (by simp)]
      exact le_trans (List.length_filter_le _ _) hr
    exact le_trans (length_mapSet_le _ _ _) (by omega)
  · push_neg at hfull
    by_cases hk : m.any (fun p => p.1 = k) = true
    · unfold cacheSet
      rw [if_neg (by simpa [maxSize] using hfull)]
      rw [length_mapSet_of_mem m k v hk]
      omega
    · have hk2 : m.any (fun p => p.1 = k) = false := by
        simp only [Bool.not_eq_true] at hk
        exact hk
      rw [cacheSet_of_small m k v hfull hk2]
      simp
      omega

theorem cacheSet_full_evicts (m : CacheMap) (k : CacheKey) (v : Thumbs)
    (fk : CacheKey) (hlen : m.length = 5) (hnd : (m.map Prod.fst).Nodup)
    (hfk : firstKey m = some fk) :
    cacheSet m k v = mapSet (mapDelete m fk) k v ∧ (mapDelete m fk).length = 4 := by
  obtain ⟨v0, rest, he⟩ := firstKey_shape hfk
  refine ⟨cacheSet_of_full m k v fk (by omega) hfk, ?_⟩
  subst he
  have hrest : ∀ p ∈ rest, p.1 ≠ fk := by
    simp only [List.map_cons, List.nodup_cons] at hnd
    intro p hp hcontra
    exact hnd.1 (by rw [← hcontra]; exact List.mem_map_of_mem _ hp)
  rw [mapDelete_cons_head fk v0 rest hrest]
  simp at hlen
  omega

theorem cache_six_inserts (k1 k2 k3 k4 k5 k6 : CacheKey)
    (v1 v2 v3 v4 v5 v6 : Thumbs)
    (h12 : k1 ≠ k2) (h13 : k1 ≠ k3) (h14 : k1 ≠ k4) (h15 : k1 ≠ k5) (h16 : k1 ≠ k6)
    (h23 : k2 ≠ k3) (h24 : k2 ≠ k4) (h25 : k2 ≠ k5) (h26 : k2 ≠ k6)
    (h34 : k3 ≠ k4) (h35 : k3 ≠ k5) (h36 : k3 ≠ k6)
    (h45 : k4 ≠ k5) (h46 : k4 ≠ k6) (h56 : k5 ≠ k6) :
    cacheSet (cacheSet (cacheSet (cacheSet (cacheSet (cacheSet [] k1 v1) k2 v2)
        k3 v3) k4 v4) k5 v5) k6 v6
      = [(k2, v2), (k3, v3), (k4, v4), (k5, v5), (k6, v6)] := by
  have e1 : cacheSet ([] : CacheMap) k1 v1 = [(k1, v1)] := by
    rw [cacheSet_of_small _ k1 v1 (by simp) (by simp)]
    rfl
  have e2 : cacheSet [(k1, v1)] k2 v2 = [(k1, v1), (k2, v2)] := by
    rw [cacheSet_of_small _ k2 v2 (by simp) (by simp [h12])]
    rfl
  have e3 : cacheSet [(k1, v1), (k2, v2)] k3 v3 = [(k1, v1), (k2, v2), (k3, v3)] := by
    rw [cacheSet_of_small _ k3 v3 (by simp) (by simp [h13, h23])]
    rfl
  have e4 : cacheSet [(k1, v1), (k2, v2), (k3, v3)] k4 v4
      = [(k1, v1), (k2, v2), (k3, v3), (k4, v4)] := by
    rw [cacheSet_of_small _ k4 v4 (by simp) (by simp [h14, h24, h34])]
    rfl
  have e5 : cacheSet [(k1, v1), (k2, v2), (k3, v3), (k4, v4)] k5 v5
      = [(k1, v1), (k2, v2), (k3, v3), (k4, v4), (k5, v5)] := by
    rw [cacheSet_of_small _ k5 v5 (by simp) (by simp [h15, h25, h35, h45])]
    rfl
  have hd : mapDelete [(k1, v1), (k2, v2), (k3, v3), (k4, v4), (k5, v5)] k1
      = [(k2, v2), (k3, v3), (k4, v4), (k5, v5)] := by
    unfold mapDelete
    simp [h12.symm, h13.symm, h14.symm, h15.symm]
  have e6 : cacheSet [(k1, v1), (k2, v2), (k3, v3), (k4, v4), (k5, v5)] k6 v6
      = [(k2, v2), (k3, v3), (k4, v4), (k5, v5), (k6, v6)] := by
    rw [cacheSet_of_full _ k6 v6 k1 (by simp) (by simp [firstKey]), hd,
      mapSet_of_not_mem _ k6 v6 (by simp [h26, h36, h46, h56])]
    rfl
  rw [e1, e2, e3, e4, e5, e6]

theorem mapSet_key_subset {m : CacheMap} {k : CacheKey} {v : Thumbs}
    {p : CacheKey × Thumbs} (hp : p ∈ mapSet m k v) : p.1 = k ∨ p ∈ m := by
  unfold mapSet at hp
  split at hp
  · obtain ⟨q, hq, he⟩ := List.mem_map.mp hp
    by_cases hqk : q.1 = k
    · left
      rw [← he, if_pos hqk]
    · right
      rw [← he, if_neg hqk]
      exact hq
  · rcases List.mem_append.mp hp with h | h
    · exact Or.inr h
    · left
      simp at h
      rw [h]

/-- Six successive insertions with all-fresh keys, starting from the empty
cache.  Used to state the insertion-beyond-capacity scenario. -/
def insertSix (k1 k2 k3 k4 k5 k6 : CacheKey) (v1 v2 v3 v4 v5 v6 : Thumbs) : CacheMap :=
  cacheSet (cacheSet (cacheSet (cacheSet (cacheSet (cacheSet [] k1 v1) k2 v2)
    k3 v3) k4 v4) k5 v5) k6 v6

end CapCutTimeline

namespace CapCutTimeline

/-! ## Claim theorems -/

/-- C2: `ThumbnailCache` holds at most `maxSize = 5` entries at all times:
`set` on a map within the bound stays within the bound; `set` on a map
already holding 5 entries first deletes exactly one entry, the
earliest-inserted one, before inserting; and inserting 6 distinct keys
into the empty cache leaves exactly 5 entries, with the first-inserted key
absent and the other five present with their values. -/
theorem thumbnailCache_fifo_bounded :
    (∀ (m : CacheMap) (k : CacheKey) (v : Thumbs),
        m.length ≤ maxSize → (cacheSet m k v).length ≤ maxSize)
    ∧ (∀ (m : CacheMap) (k : CacheKey) (v : Thumbs) (fk : CacheKey),
        m.length = maxSize → (m.map Prod.fst).Nodup → firstKey m = some fk →
          cacheSet m k v = mapSet (mapDelete m fk) k v
          ∧ (mapDelete m fk).length = maxSize - 1)
    ∧ (∀ (k1 k2 k3 k4 k5 k6 : CacheKey) (v1 v2 v3 v4 v5 v6 : Thumbs),
        k1 ≠ k2 → k1 ≠ k3 → k1 ≠ k4 → k1 ≠ k5 → k1 ≠ k6 →
        k2 ≠ k3 → k2 ≠ k4 → k2 ≠ k5 → k2 ≠ k6 →
        k3 ≠ k4 → k3 ≠ k5 → k3 ≠ k6 →
        k4 ≠ k5 → k4 ≠ k6 → k5 ≠ k6 →
          (insertSix k1 k2 k3 k4 k5 k6 v1 v2 v3 v4 v5 v6).length = maxSize
          ∧ cacheGet (insertSix k1 k2 k3 k4 k5 k6 v1 v2 v3 v4 v5 v6) k1 = none
          ∧ cacheGet (insertSix k1 k2 k3 k4 k5 k6 v1 v2 v3 v4 v5 v6) k2 = some v2
          ∧ cacheGet (insertSix k1 k2 k3 k4 k5 k6 v1 v2 v3 v4 v5 v6) k3 = some v3
          ∧ cacheGet (insertSix k1 k2 k3 k4 k5 k6 v1 v2 v3 v4 v5 v6) k4 = some v4
          ∧ cacheGet (insertSix k1 k2 k3 k4 k5 k6 v1 v2 v3 v4 v5 v6) k5 = some v5
          ∧ cacheGet (insertSix k1 k2 k3 k4 k5 k6 v1 v2 v3 v4 v5 v6) k6 = some v6) := by
  refine ⟨?_, ?_, ?_⟩
  · intro m k v h
    simpa [maxSize] using cacheSet_length_le m k v (by simpa [maxSize] using h)
  · intro m k v fk hlen hnd hfk
    simpa [maxSize] using
      cacheSet_full_evicts m k v fk (by simpa [maxSize] using hlen) hnd hfk
  · intro k1 k2 k3 k4 k5 k6 v1 v2 v3 v4 v5 v6 h12 h13 h14 h15 h16 h23 h24 h25
      h26 h34 h35 h36 h45 h46 h56
    have e : insertSix k1 k2 k3 k4 k5 k6 v1 v2 v3 v4 v5 v6
        = [(k2, v2), (k3, v3), (k4, v4), (k5, v5), (k6, v6)] :=
      cache_six_inserts k1 k2 k3 k4 k5 k6 v1 v2 v3 v4 v5 v6 h12 h13 h14 h15 h16
        h23 h24 h25 h26 h34 h35 h36 h45 h46 h56
    rw [e]
    refine ⟨by simp [maxSize], ?_, ?_, ?_, ?_, ?_, ?_⟩
    · exact mapGet_eq_none _ k1 (by
        intro p hp
        simp at hp
        rcases hp with h | h | h | h | h <;> rw [h] <;>
          first
            | exact Ne.symm h12
            | exact Ne.symm h13
            | exact Ne.symm h14
            | exact Ne.symm h15
            | exact Ne.symm h16)
    · simp [cacheGet, mapGet, List.find?]
    · simp [cacheGet, mapGet, List.find?, h23]
    · simp [cacheGet, mapGet, List.find?, h24, h34]
    · simp [cacheGet, mapGet, List.find?, h25, h35, h45]
    · simp [cacheGet, mapGet, List.find?, h26, h36, h46, h56]

/-- Witness for C2: the bound at the empty map and the six-distinct-keys
scenario at concrete keys. -/
theorem thumbnailCache_fifo_bounded_witness :
    (cacheSet [] ("a", 0) [some "u"]).length ≤ maxSize
    ∧ cacheGet (insertSix ("k1", 0) ("k2", 0) ("k3", 0) ("k4", 0) ("k5", 0)
        ("k6", 0) [some "u1"] [some "u2"] [some "u3"] [some "u4"] [some "u5"]
        [some "u6"]) ("k1", 0) = none
    ∧ cacheGet (insertSix ("k1", 0) ("k2", 0) ("k3", 0) ("k4", 0) ("k5", 0)
        ("k6", 0) [some "u1"] [some "u2"] [some "u3"] [some "u4"] [some "u5"]
        [some "u6"]) ("k6", 0) = some [some "u6"] := by
  have h6 := thumbnailCache_fifo_bounded.2.2 ("k1", 0) ("k2", 0) ("k3", 0)
    ("k4", 0) ("k5", 0) ("k6", 0) [some "u1"] [some "u2"] [some "u3"]
    [some "u4"] [some "u5"] [some "u6"]
    (by decide) (by decide) (by decide) (by decide) (by decide)
    (by decide) (by decide) (by decide) (by decide)
    (by decide) (by decide) (by decide)
    (by decide) (by decide) (by decide)
  exact ⟨thumbnailCache_fifo_bounded.1 [] ("a", 0) [some "u"] (by simp [maxSize]),
    h6.2.1, h6.2.2.2.2.2.2⟩

/-- C10: `ThumbnailCache.set` on a full (5-entry) cache whose key is
already present still deletes the earliest-inserted entry first.  When the
updated key is not the oldest entry, an unrelated entry (the oldest) is
evicted and the in-place overwrite shrinks the cache to 4 entries; when
the updated key is the oldest entry itself, it is deleted and re-appended
as the newest entry, so the cache keeps 5 entries. -/
theorem thumbnailCache_set_existing :
    ∀ (m : CacheMap) (k fk : CacheKey) (v v0 : Thumbs) (rest : CacheMap),
      m = (fk, v0) :: rest → m.length = maxSize → (m.map Prod.fst).Nodup →
      (mapGet m k).isSome = true →
      ((k ≠ fk →
          (cacheSet m k v).length = maxSize - 1
          ∧ cacheGet (cacheSet m k v) fk = none
          ∧ cacheGet (cacheSet m k v) k = some v)
       ∧ (k = fk →
          cacheSet m k v = rest ++ [(k, v)]
          ∧ (cacheSet m k v).length = maxSize
          ∧ (cacheSet m k v).getLast? = some (k, v))) := by
  intro m k fk v v0 rest he hlen hnd hk
  subst he
  have hlrest : rest.length = 4 := by
    simp [maxSize] at hlen
    omega
  have hfk : firstKey ((fk, v0) :: rest) = some fk := by simp [firstKey]
  have hrest_ne : ∀ p ∈ rest, p.1 ≠ fk := by
    simp only [List.map_cons, List.nodup_cons] at hnd
    intro p hp hcontra
    exact hnd.1 (by rw [← hcontra]; exact List.mem_map_of_mem _ hp)
  have hdel : mapDelete ((fk, v0) :: rest) fk = rest :=
    mapDelete_cons_head fk v0 rest hrest_ne
  have hset : cacheSet ((fk, v0) :: rest) k v = mapSet rest k v := by
    rw [cacheSet_of_full _ k v fk (by simp [hlrest]) hfk, hdel]
  constructor
  · intro hne
    have hkrest : rest.any (fun p => p.1 = k) = true := by
      unfold mapGet at hk
      rw [List.find?_cons_of_neg _ (by simp [Ne.symm hne])] at hk
      cases hfind : rest.find? (fun p => p.1 = k) with
      | none =>
          rw [hfind] at hk
          simp at hk
      | some p =>
          have hmem := List.mem_of_find?_eq_some hfind
          have hpk : p.1 = k := by simpa using List.find?_some hfind
          exact List.any_eq_true.mpr ⟨p, hmem, by simp [hpk]⟩
    refine ⟨?_, ?_, ?_⟩
    · rw [hset, length_mapSet_of_mem rest k v hkrest, hlrest]
      rfl
    · rw [hset]
      apply mapGet_eq_none
      intro p hp
      rcases mapSet_key_subset hp with h | h
      · rw [h]
        exact hne
      · exact hrest_ne p h
    · rw [hset]
      exact mapGet_mapSet_self rest k v
  · intro heq
    subst heq
    have hfresh : rest.any (fun p => p.1 = k) = false := by
      rw [List.any_eq_false]
      intro p hp
      simpa using hrest_ne p hp
    have happ : cacheSet ((k, v0) :: rest) k v = rest ++ [(k, v)] := by
      rw [hset, mapSet_of_not_mem rest k v hfresh]
    refine ⟨happ, ?_, ?_⟩
    · rw [happ]
      simp [hlrest, maxSize]
    · rw [happ, List.getLast?_concat]

/-- Witness for C10: a concrete full cache updated at a non-oldest present
key, and one updated at its oldest key. -/
theorem thumbnailCache_set_existing_witness :
    (cacheSet [((("a", 0) : CacheKey), ([some "u"] : Thumbs)), (("b", 0), [some "u"]),
        (("c", 0), [some "u"]), (("d", 0), [some "u"]), (("e", 0), [some "u"])]
        ("c", 0) [some "w"]).length = maxSize - 1
    ∧ (cacheSet [((("a", 0) : CacheKey), ([some "u"] : Thumbs)), (("b", 0), [some "u"]),
        (("c", 0), [some "u"]), (("d", 0), [some "u"]), (("e", 0), [some "u"])]
        ("a", 0) [some "w"]).getLast? = some (("a", 0), [some "w"]) := by
  constructor
  · exact ((thumbnailCache_set_existing _ ("c", 0) ("a", 0) [some "w"] [some "u"]
      _ rfl (by decide) (by decide) (by decide)).1 (by decide)).1
  · exact ((thumbnailCache_set_existing _ ("a", 0) ("a", 0) [some "w"] [some "u"]
      _ rfl (by decide) (by decide) (by decide)).2 rfl).2.2

/-! ## The concurrency window of generateThumbnailsWithLimit -/

/-- Inductive invariant of a run: the pool never exceeds the window, the
loop is parked exactly when the pool is full, and an unparked loop always
has spare capacity (assuming a positive window). -/
def GenInv (limit : Nat) (s : GenState) : Prop :=
  s.executing.length ≤ limit
  ∧ (s.waiting = false → s.executing.length < limit)
  ∧ (s.waiting = true → s.executing.length = limit)

theorem reach_genInv {n limit : Nat} {f : Nat → Option Uri} {s : GenState}
    (hlim : 1 ≤ limit) (h : Reach n limit f s) : GenInv limit s := by
  induction h with
  | init =>
      refine ⟨by simp [initGen], fun _ => by simpa [initGen] using hlim,
        fun hw => by simp [initGen] at hw⟩
  | step hr hstep =>
      rename_i s s' ih
      obtain ⟨h1, h2, h3⟩ := ih
      cases hstep with
      | launch hw hn hs =>
          subst hs
          have hlt := h2 hw
          refine ⟨?_, ?_, ?_⟩
          · simp only [List.length_append, List.length_singleton]
            omega
          · intro hw'
            simp only [decide_eq_false_iff_not, not_le] at hw'
            simp only [List.length_append, List.length_singleton]
            omega
          · intro hw'
            simp only [decide_eq_true_eq] at hw'
            simp only [List.length_append, List.length_singleton]
            omega
      | complete i hi hs =>
          subst hs
          have hpos : 0 < s.executing.length :=
            List.length_pos.mpr (List.ne_nil_of_mem hi)
          have hlen : (s.executing.erase i).length = s.executing.length - 1 :=
            List.length_erase_of_mem hi
          refine ⟨?_, ?_, ?_⟩
          · simp only [hlen]
            omega
          · intro _
            simp only [hlen]
            omega
          · intro hw'
            simp at hw'

/-- C9: throughout any run of `generateThumbnailsWithLimit` with a
positive window `limit`, at most `limit` extraction calls are in flight,
and whenever the pool is below the limit while tasks remain queued the
loop is not parked and the admission of the next queued task (in index
order) is the enabled loop step — a sliding window that never idles with
spare capacity. -/
theorem generation_window_bounded :
    ∀ (n limit : Nat) (f : Nat → Option Uri) (s : GenState),
      1 ≤ limit → Reach n limit f s →
      s.executing.length ≤ limit
      ∧ (s.executing.length < limit → s.nextTask < n →
          s.waiting = false
          ∧ GStep n limit f s
              ⟨s.nextTask + 1, s.executing ++ [s.nextTask], s.results,
               decide (limit ≤ s.executing.length + 1)⟩) := by
  intro n limit f s hlim h
  obtain ⟨h1, h2, h3⟩ := reach_genInv hlim h
  refine ⟨h1, fun hlt hn => ?_⟩
  have hw : s.waiting = false := by
    cases hwv : s.waiting
    · rfl
    · exact absurd (h3 hwv) (by omega)
  exact ⟨hw, GStep.launch s _ hw hn rfl⟩

/-- Witness for C9 at a concrete run (3 tasks, window 2, initial state). -/
theorem generation_window_bounded_witness :
    initGen.executing.length ≤ 2
    ∧ GStep 3 2 (fun _ => none) initGen
        ⟨initGen.nextTask + 1, initGen.executing ++ [initGen.nextTask],
         initGen.results, decide (2 ≤ initGen.executing.length + 1)⟩ := by
  have h := generation_window_bounded 3 2 (fun _ => none) initGen (by decide)
    Reach.init
  exact ⟨h.1, (h.2 (by simp [initGen]) (by simp [initGen])).2⟩

/-! ## Completion-order traces of generateThumbnailsWithLimit -/

/-- Task outcomes of a two-thumbnail run where both extractions succeed:
the extraction for sample index 0 resolves with "thumb0" and the one for
sample index 1 with "thumb1". -/
def twoOk : Nat → Option Uri := fun i =>
  if i = 0 then some "thumb0" else if i = 1 then some "thumb1" else none

/-- Task outcomes of a two-thumbnail run where the extraction for sample
index 0 fails (absent outcome) and the one for sample index 1 succeeds. -/
def failZero : Nat → Option Uri := fun i =>
  if i = 1 then some "thumb1" else none

/-- C1 (refuting trace): a completed run of `generateThumbnailsWithLimit`
with two tasks in which task 1's extraction resolves before task 0's
pushes its results in completion order — and the `orderedResults` pass of
lines 294-297 preserves that order.  The final sequence is
`[some "thumb1", some "thumb0"]`: slot 0 holds the thumbnail extracted
for sample index 1, and slot 1 the one for sample index 0, so the final
order is decided by completion order, not by original sample index
(despite the comment at line 293, "Sort results back to original
order"). -/
theorem completionOrder_decides_slots :
    Reach 2 2 twoOk ⟨2, [], [some "thumb1", some "thumb0"], false⟩
    ∧ twoOk 0 = some "thumb0"
    ∧ twoOk 1 = some "thumb1"
    ∧ orderResults 2 [some "thumb1", some "thumb0"]
        = [some "thumb1", some "thumb0"] := by
  have s1 : Reach 2 2 twoOk ⟨1, [0], [], false⟩ :=
    Reach.init.step (GStep.launch initGen _ rfl (by decide) (by decide))
  have s2 : Reach 2 2 twoOk ⟨2, [0, 1], [], true⟩ :=
    s1.step (GStep.launch _ _ rfl (by decide) (by decide))
  have s3 : Reach 2 2 twoOk ⟨2, [0], [some "thumb1"], false⟩ :=
    s2.step (GStep.complete _ _ 1 (by decide) (by decide))
  have s4 : Reach 2 2 twoOk ⟨2, [], [some "thumb1", some "thumb0"], false⟩ :=
    s3.step (GStep.complete _ _ 0 (by decide) (by decide))
  exact ⟨s4, by decide, by decide, by decide⟩

/-- C5 (refuting trace): with two tasks where extraction 0 fails and
extraction 1 succeeds, a completed run in which task 1 resolves first
produces the ordered sequence `[some "thumb1", none]`: the failed
extraction's own slot (slot 0) ends up non-absent while slot 1, whose
extraction succeeded, is absent — the failure is recorded in the wrong
slot.  (The run still yields exactly two slots and no error escapes:
failure and success are both ordinary completions.) -/
theorem failedSlot_misattributed :
    Reach 2 2 failZero ⟨2, [], [some "thumb1", none], false⟩
    ∧ failZero 0 = none
    ∧ failZero 1 = some "thumb1"
    ∧ orderResults 2 [some "thumb1", none] = [some "thumb1", none]
    ∧ (orderResults 2 [some "thumb1", none]).length = 2 := by
  have s1 : Reach 2 2 failZero ⟨1, [0], [], false⟩ :=
    Reach.init.step (GStep.launch initGen _ rfl (by decide) (by decide))
  have s2 : Reach 2 2 failZero ⟨2, [0, 1], [], true⟩ :=
    s1.step (GStep.launch _ _ rfl (by decide) (by decide))
  have s3 : Reach 2 2 failZero ⟨2, [0], [some "thumb1"], false⟩ :=
    s2.step (GStep.complete _ _ 1 (by decide) (by decide))
  have s4 : Reach 2 2 failZero ⟨2, [], [some "thumb1", none], false⟩ :=
    s3.step (GStep.complete _ _ 0 (by decide) (by decide))
  exact ⟨s4, by decide, by decide, by decide, by decide⟩

/-! ## Cancellation lemmas for the generation effect -/

theorem stepW_cancel_mono {n : Nat} {w : World} {e : Event} {r : Nat}
    (h : r ∈ w.cancelled) : r ∈ (stepW n w e).cancelled := by
  cases e with
  | startRun t => exact List.mem_cons_of_mem _ h
  | genComplete t uri d res =>
      simp only [stepW]
      split
      · exact h
      · exact h
  | teardown => exact List.mem_cons_of_mem _ h

theorem stepW_unmounted_mono {n : Nat} {w : World} {e : Event}
    (h : w.mounted = false) : (stepW n w e).mounted = false := by
  cases e with
  | startRun t => exact h
  | genComplete t uri d res =>
      simp only [stepW]
      split
      · exact h
      · exact h
  | teardown => rfl

theorem stepW_genComplete_noop {n : Nat} {w : World} {t : Nat} {uri : String}
    {d : ℚ} {res : Thumbs} (h : t ∈ w.cancelled ∨ w.mounted = false) :
    stepW n w (.genComplete t uri d res) = w := by
  simp only [stepW]
  split
  · rename_i hcond
    rcases h with h | h
    · exact absurd h hcond.1
    · rw [h] at hcond
      exact absurd hcond.2 (by simp)
  · rfl

theorem runEvents_append (n : Nat) (w : World) (es1 es2 : List Event) :
    runEvents n w (es1 ++ es2) = runEvents n (runEvents n w es1) es2 :=
  List.foldl_append _ _ _ _

/-- C3: a cancelled generation run never writes.  First part: starting a
new run, and unmount teardown, both abort the previously active run's
controller (and teardown clears the mounted flag).  Second part: once a
run's token is among the aborted ones — or the screen is unmounted — its
completion event is a complete no-op, whenever it arrives: the event list
with the stale completion inserted produces exactly the same world
(thumbnails, loading flag and cache included) as the list without it. -/
theorem cancelledRun_writes_nothing :
    (∀ (n : Nat) (w : World) (t : Nat),
        w.active ∈ (stepW n w (Event.startRun t)).cancelled
        ∧ w.active ∈ (stepW n w Event.teardown).cancelled
        ∧ (stepW n w Event.teardown).mounted = false)
    ∧ (∀ (n : Nat) (w0 : World) (es1 es2 : List Event) (r : Nat)
        (uri : String) (d : ℚ) (res : Thumbs),
        (r ∈ (runEvents n w0 es1).cancelled
          ∨ (runEvents n w0 es1).mounted = false) →
        runEvents n w0 (es1 ++ Event.genComplete r uri d res :: es2)
          = runEvents n w0 (es1 ++ es2)) := by
  constructor
  · intro n w t
    exact ⟨List.mem_cons_self _ _, List.mem_cons_self _ _, rfl⟩
  · intro n w0 es1 es2 r uri d res h
    rw [runEvents_append, runEvents_append]
    have he : runEvents n (runEvents n w0 es1) (Event.genComplete r uri d res :: es2)
        = runEvents n (stepW n (runEvents n w0 es1) (Event.genComplete r uri d res))
            es2 := rfl
    rw [he, stepW_genComplete_noop h]

/-- Witness for C3: a concrete world whose run 0 is superseded by run 1;
run 0's late completion then changes nothing. -/
theorem cancelledRun_writes_nothing_witness :
    (0 : Nat) ∈ (runEvents 2 ⟨0, [], true, [], true, []⟩
        [Event.startRun 1]).cancelled
    ∧ runEvents 2 ⟨0, [], true, [], true, []⟩
        ([Event.startRun 1] ++ Event.genComplete 0 "media" 5 [some "late"] :: [])
      = runEvents 2 ⟨0, [], true, [], true, []⟩ ([Event.startRun 1] ++ []) := by
  have h : (0 : Nat) ∈ (runEvents 2 ⟨0, [], true, [], true, []⟩
      [Event.startRun 1]).cancelled := by decide
  exact ⟨h, cancelledRun_writes_nothing.2 2 ⟨0, [], true, [], true, []⟩
    [Event.startRun 1] [] 0 "media" 5 [some "late"] (Or.inl h)⟩

theorem cacheGet_cacheSet_self (m : CacheMap) (k : CacheKey) (v : Thumbs) :
    cacheGet (cacheSet m k v) k = some v :=
  mapGet_mapSet_self _ k v

/-- C7: when a non-cancelled, still-mounted run completes, and at least
one slot of the ordered result is non-absent, the full ordered sequence
(absent slots included) is written into the cache under the key derived
from the video URI and the rounded duration, and is retrievable there;
when every slot is absent, the cache is left untouched. -/
theorem nonCancelledRun_cache_policy :
    ∀ (n : Nat) (w : World) (t : Nat) (uri : String) (d : ℚ) (res : Thumbs),
      t ∉ w.cancelled → w.mounted = true →
      (((orderResults n res).any (fun r => r ≠ none) = true →
          (stepW n w (.genComplete t uri d res)).cache
            = cacheSet w.cache (mkCacheKey uri d) (orderResults n res)
          ∧ cacheGet (stepW n w (.genComplete t uri d res)).cache
              (mkCacheKey uri d)
            = some (orderResults n res))
       ∧ ((orderResults n res).any (fun r => r ≠ none) = false →
          (stepW n w (.genComplete t uri d res)).cache = w.cache)) := by
  intro n w t uri d res hnc hm
  constructor
  · intro hsome
    have hc : (stepW n w (.genComplete t uri d res)).cache
        = cacheSet w.cache (mkCacheKey uri d) (orderResults n res) := by
      simp only [stepW]
      split
      · simp only [hsome, if_true]
      · rename_i hcond
        exact absurd ⟨hnc, hm⟩ hcond
    refine ⟨hc, ?_⟩
    rw [hc]
    exact cacheGet_cacheSet_self _ _ _
  · intro hnone
    simp only [stepW]
    split
    · simp only [hnone]
      rfl
    · rename_i hcond
      exact absurd ⟨hnc, hm⟩ hcond

/-- Witness for C7: a completion with one non-absent slot writes the full
ordered sequence into the cache at the derived key. -/
theorem nonCancelledRun_cache_policy_witness :
    cacheGet (stepW 2 ⟨0, [], true, [], true, []⟩
        (Event.genComplete 0 "media" (9 / 2) [some "x"])).cache
      (mkCacheKey "media" (9 / 2)) = some (orderResults 2 [some "x"]) :=
  ((nonCancelledRun_cache_policy 2 ⟨0, [], true, [], true, []⟩ 0 "media" (9 / 2)
      [some "x"] (by decide) rfl).1 (by decide)).2

/-- C4: a `timeUpdate` event leaves the playback-position state — in
particular NormalizedProgress — unchanged while a drag is active; when no
drag is active and the duration is known positive, the event sets
NormalizedProgress to currentTime / duration and DisplayTime to
currentTime. -/
theorem timeUpdate_drag_protocol :
    ∀ (duration currentTime : ℚ) (s : PlaybackPos),
      onTimeUpdate true duration currentTime s = s
      ∧ (0 < duration →
          onTimeUpdate false duration currentTime s
            = { progress := currentTime / duration, displayTime := currentTime }) := by
  intro d ct s
  constructor
  · unfold onTimeUpdate
    rw [if_neg]
    rintro ⟨h, -⟩
    exact Bool.noConfusion h
  · intro hd
    unfold onTimeUpdate
    rw [if_pos ⟨rfl, hd⟩]

/-- Witness for C4 at duration 10, currentTime 3 and a state whose
progress is 1/2. -/
theorem timeUpdate_drag_protocol_witness :
    onTimeUpdate true 10 3 ⟨1 / 2, 7⟩ = ⟨1 / 2, 7⟩
    ∧ onTimeUpdate false 10 3 ⟨1 / 2, 7⟩ = ⟨3 / 10, 3⟩ := by
  refine ⟨(timeUpdate_drag_protocol 10 3 ⟨1 / 2, 7⟩).1, ?_⟩
  rw [(timeUpdate_drag_protocol 10 3 ⟨1 / 2, 7⟩).2 (by norm_num)]

/-- C6: the tap and pan handlers map a pointer offset x on a timeline of
positive width W to progress clamp(x, 0, W) / W and target time
progress * duration; a tap at x = 0 seeks to time 0, at x = W to the full
duration, at x = W / 2 to half the duration, and the progress always lies
in [0, 1] even for pointer coordinates outside [0, W]. -/
theorem pointer_seek_mapping :
    ∀ (x width duration : ℚ), 0 < width →
      pointerProgress x width = max 0 (min x width) / width
      ∧ pointerTime x width duration = pointerProgress x width * duration
      ∧ pointerProgress 0 width = 0
      ∧ pointerTime 0 width duration = 0
      ∧ pointerProgress width width = 1
      ∧ pointerTime width width duration = duration
      ∧ pointerTime (width / 2) width duration = duration / 2
      ∧ 0 ≤ pointerProgress x width
      ∧ pointerProgress x width ≤ 1 := by
  intro x W D hW
  have h0 : pointerProgress 0 W = 0 := by
    unfold pointerProgress
    rw [min_eq_left hW.le, max_self]
    exact zero_div W
  have h1 : pointerProgress W W = 1 := by
    unfold pointerProgress
    rw [min_self, max_eq_right hW.le]
    exact div_self hW.ne'
  have hhalf : pointerProgress (W / 2) W = 1 / 2 := by
    unfold pointerProgress
    rw [min_eq_left (by linarith), max_eq_right (by positivity), div_div]
    rw [div_eq_div_iff (by positivity) (by norm_num)]
    ring
  refine ⟨rfl, rfl, h0, ?_, h1, ?_, ?_, ?_, ?_⟩
  · unfold pointerTime
    rw [h0, zero_mul]
  · unfold pointerTime
    rw [h1, one_mul]
  · unfold pointerTime
    rw [hhalf]
    ring
  · exact div_nonneg (le_max_left _ _) hW.le
  · rw [pointerProgress, div_le_one hW]
    exact max_le hW.le (min_le_right _ _)

/-- Witness for C6 at an out-of-bounds pointer coordinate x = -5 on a
timeline of width 10 with duration 60. -/
theorem pointer_seek_mapping_witness :
    0 ≤ pointerProgress (-5) 10
    ∧ pointerProgress (-5) 10 ≤ 1
    ∧ pointerTime 10 10 60 = 60 := by
  have h := pointer_seek_mapping (-5) 10 60 (by norm_num)
  exact ⟨h.2.2.2.2.2.2.2.1, h.2.2.2.2.2.2.2.2, h.2.2.2.2.2.1⟩

/-- C8: the millisecond timestamp requested for slot i is exactly
(duration / count) * i seconds expressed in milliseconds, and for a
100-second video with 10 thumbnails the requested timestamps are
0, 10, ..., 90 seconds (0 to 90000 ms). -/
theorem sample_timestamps :
    (∀ (duration : ℚ) (count i : Nat),
        sampleTimeMs duration count i = duration / count * i * 1000)
    ∧ (List.range 10).map (fun i => sampleTimeMs 100 10 i)
        = [0, 10000, 20000, 30000, 40000, 50000, 60000, 70000, 80000, 90000] := by
  refine ⟨fun d c i => rfl, ?_⟩
  rw [show List.range 10 = [0, 1, 2, 3, 4, 5, 6, 7, 8, 9] from rfl]
  norm_num [sampleTimeMs]

end CapCutTimeline
